import Mathlib

/-!
# siac wallet commands: balance delta, transaction net flow, unit parsing

A shallow embedding of `siac/walletcmd.go`.  The commands read typed records
from the daemon and print text; here every command is a function from the
record it received to the values it hands to `Printf` (or to `post`).
-/

set_option exponentiation.threshold 4000
set_option maxRecDepth 100000

namespace Siac

/-! ## Currency (package `types`, not part of `walletcmd.go`) -/

/-- Modelled from the spec: its error taxonomy (section 7); the error types of the
packages behind `walletcmd.go` are not part of that file. -/
inductive CoreError
  | PreconditionViolation
  | ParseError
  | UnrecognizedFundType
  deriving DecidableEq

instance instDecidableEqExcept {ε α : Type} [DecidableEq ε] [DecidableEq α] :
    DecidableEq (Except ε α)
  | .ok a, .ok b => if h : a = b then isTrue (by rw [h]) else isFalse (by intro c; cases c; exact h rfl)
  | .error a, .error b =>
    if h : a = b then isTrue (by rw [h]) else isFalse (by intro c; cases c; exact h rfl)
  | .ok _, .error _ => isFalse (by intro c; cases c)
  | .error _, .ok _ => isFalse (by intro c; cases c)

/-- Modelled from the spec: the `types.Currency` value type, "an opaque wrapper
over an arbitrary-precision non-negative integer, denominated in the smallest
sub-unit" (the hasting). -/
structure Currency where
  i : Nat
  deriving DecidableEq

/-- The Go zero value of a `types.Currency` variable. -/
def Currency.zero : Currency := ⟨0⟩

/-- Modelled from the spec: `Add(a,b) → a+b`, always defined. -/
def Currency.Add (x y : Currency) : Currency := ⟨x.i + y.i⟩

/-- Modelled from the spec: `Cmp(a,b) → {-1,0,1}`, the total order by integer
value. -/
def Currency.Cmp (x y : Currency) : Int :=
  if x.i < y.i then -1 else if x.i = y.i then 0 else 1

/-- Modelled from the spec: `Sub(a,b) → a-b | requires a ≥ b`; with the minuend
smaller than the subtrahend it "signals PreconditionViolation, never returns a
value" (no clamping, no wrapping). -/
def Currency.Sub (x y : Currency) : Except CoreError Currency :=
  if x.i < y.i then .error .PreconditionViolation else .ok ⟨x.i - y.i⟩

/-- Modelled from the spec: `types.SiacoinPrecision`, the number of hastings in
one siacoin ("base unit = 10^24 hastings"). -/
def SiacoinPrecision : Currency := ⟨10 ^ 24⟩

/-! ## Fund-type tags and processed transactions (packages `types`, `modules`) -/

/-- Modelled from the spec: the `types.Specifier` fund-type tag.  The five
documented tags are the constructors the code compares against; `other` stands
for every remaining value of the 16-byte tag. -/
inductive Specifier
  | siacoinInput
  | siafundInput
  | siacoinOutput
  | siafundOutput
  | minerPayout
  | other (tag : Nat)
  deriving DecidableEq

def SpecifierSiacoinInput : Specifier := .siacoinInput
def SpecifierSiafundInput : Specifier := .siafundInput
def SpecifierSiacoinOutput : Specifier := .siacoinOutput
def SpecifierSiafundOutput : Specifier := .siafundOutput
def SpecifierMinerPayout : Specifier := .minerPayout

/-- The documented tag set of the spec. -/
def Specifier.documented : Specifier → Bool
  | .other _ => false
  | _ => true

/-- The fields of `modules.ProcessedInput` that the commands read. -/
structure ProcessedInput where
  FundType : Specifier
  WalletAddress : Bool
  Value : Currency
  deriving DecidableEq

/-- The fields of `modules.ProcessedOutput` that the commands read. -/
structure ProcessedOutput where
  FundType : Specifier
  WalletAddress : Bool
  Value : Currency
  deriving DecidableEq

/-- The fields of `modules.ProcessedTransaction` that the commands read;
`ConfirmationHeight` is a `types.BlockHeight` (an unsigned 64-bit integer). -/
structure ProcessedTransaction where
  TransactionID : Nat
  ConfirmationHeight : Nat
  Inputs : List ProcessedInput
  Outputs : List ProcessedOutput
  deriving DecidableEq

/-- The record `api.WalletTransactionsGET`. -/
structure WalletTransactionsGET where
  ConfirmedTransactions : List ProcessedTransaction
  UnconfirmedTransactions : List ProcessedTransaction
  deriving DecidableEq

/-! ## `wallettransactionscmd`: the two accumulation loops -/

/-- The pair `(outgoingSiacoins, outgoingSiafunds)`. -/
abbrev Outgoing := Currency × Currency

/-- One iteration of `for _, input := range txn.Inputs` (lines 438-445). -/
def inputStep (acc : Outgoing) (input : ProcessedInput) : Outgoing :=
  let outgoingSiacoins :=
    if input.FundType = SpecifierSiacoinInput ∧ input.WalletAddress = true then
      acc.1.Add input.Value
    else acc.1
  let outgoingSiafunds :=
    if input.FundType = SpecifierSiafundInput ∧ input.WalletAddress = true then
      acc.2.Add input.Value
    else acc.2
  (outgoingSiacoins, outgoingSiafunds)

/-- The input loop, started from the two zero-valued accumulators. -/
def inputLoop (inputs : List ProcessedInput) : Outgoing :=
  inputs.foldl inputStep (Currency.zero, Currency.zero)

/-- The pair `(incomingSiacoins, incomingSiafunds)`. -/
abbrev Incoming := Currency × Currency

/-- One iteration of `for _, output := range txn.Outputs` (lines 450-460): three
independent `if` statements, the first two on the same accumulator. -/
def outputStep (acc : Incoming) (output : ProcessedOutput) : Incoming :=
  let incomingSiacoins :=
    if output.FundType = SpecifierMinerPayout then acc.1.Add output.Value else acc.1
  let incomingSiacoins :=
    if output.FundType = SpecifierSiacoinOutput ∧ output.WalletAddress = true then
      incomingSiacoins.Add output.Value
    else incomingSiacoins
  let incomingSiafunds :=
    if output.FundType = SpecifierSiafundOutput ∧ output.WalletAddress = true then
      acc.2.Add output.Value
    else acc.2
  (incomingSiacoins, incomingSiafunds)

/-- The output loop, started from the two zero-valued accumulators. -/
def outputLoop (outputs : List ProcessedOutput) : Incoming :=
  outputs.foldl outputStep (Currency.zero, Currency.zero)

def outgoingSiacoins (txn : ProcessedTransaction) : Currency := (inputLoop txn.Inputs).1
def outgoingSiafunds (txn : ProcessedTransaction) : Currency := (inputLoop txn.Inputs).2
def incomingSiacoins (txn : ProcessedTransaction) : Currency := (outputLoop txn.Outputs).1
def incomingSiafunds (txn : ProcessedTransaction) : Currency := (outputLoop txn.Outputs).2

/-- Sum of `Value` over the inputs selected by `p`. -/
def sumInputs (p : ProcessedInput → Bool) (inputs : List ProcessedInput) : Nat :=
  ((inputs.filter p).map (fun input => input.Value.i)).sum

/-- Sum of `Value` over the outputs selected by `p`. -/
def sumOutputs (p : ProcessedOutput → Bool) (outputs : List ProcessedOutput) : Nat :=
  ((outputs.filter p).map (fun output => output.Value.i)).sum

/-! ## binary64 arithmetic used for the siacoin column -/

/-- A Go `float64`.  Every finite binary64 value is an integer multiple of
`2^-1074` (the smallest subnormal), so a finite value is kept as its sign bit and
its magnitude counted in those units: `finite neg units` is `±units · 2^-1074`. -/
inductive Float64
  | finite (neg : Bool) (units : Nat)
  | inf (neg : Bool)
  | nan
  deriving DecidableEq

/-- Nearest integer to `a / b`, ties to the even neighbour. -/
def roundHalfEven (a b : Nat) : Nat :=
  let q := a / b
  let r := a % b
  if 2 * r < b then q
  else if b < 2 * r then q + 1
  else if q % 2 = 0 then q else q + 1

/-- Number of low bits to drop so that at most 53 significant bits remain: the
least `s` with `q / 2^s < 2^53` (for `fuel` at least that `s`). -/
def normShift : Nat → Nat → Nat
  | 0, _ => 0
  | fuel + 1, q => if q < 2 ^ 53 then 0 else normShift fuel (q / 2) + 1

/-- The magnitude, in units of `2^-1074`, of `a / b` rounded to 53 significant
bits, ties to even (to a multiple of the unit where fewer bits are left:
gradual underflow). -/
def roundedUnits (a b : Nat) : Nat :=
  let scaled := a * 2 ^ 1074
  let shift := normShift (scaled / b) (scaled / b)
  let mantissa := roundHalfEven scaled (b * 2 ^ shift)
  mantissa * 2 ^ shift

/-- The binary64 value nearest to `±a / b` under round-to-nearest-even, with
overflow to infinity: the result of `(*big.Rat).Float64` and of every binary64
arithmetic operation on its exact result.  The largest finite binary64 is
`(2^53 - 1) · 2^971`, which is `(2^53 - 1) · 2^2045` units. -/
def roundToFloat64 (neg : Bool) (a b : Nat) : Float64 :=
  if roundedUnits a b < 2 ^ 2098 then .finite neg (roundedUnits a b) else .inf neg

/-- The Go expression `x - y` on `float64` operands (IEEE 754 subtraction in the
default rounding mode). -/
def Float64.sub : Float64 → Float64 → Float64
  | .nan, _ => .nan
  | _, .nan => .nan
  | .inf s, .inf t => if s = t then .nan else .inf s
  | .inf s, .finite _ _ => .inf s
  | .finite _ _, .inf t => .inf (!t)
  | .finite s x, .finite t y =>
    let X : Int := if s then -(x : Int) else x
    let Y : Int := if t then -(y : Int) else y
    let D : Int := X - Y
    if D = 0 then .finite (s && !t) 0
    else roundToFloat64 (decide (D < 0)) D.natAbs (2 ^ 1074)

/-- The Go comparison `f < 0`. -/
def Float64.isNegative : Float64 → Bool
  | .finite true (_ + 1) => true
  | .inf true => true
  | _ => false

/-- The Go comparison `f > 0`. -/
def Float64.isPositive : Float64 → Bool
  | .finite false (_ + 1) => true
  | .inf false => true
  | _ => false

/-- What the verb `%.2f` prints: a sign and a count of hundredths, or one of the
texts `+Inf`, `-Inf`, `NaN`. -/
inductive Fixed2
  | num (neg : Bool) (hundredths : Nat)
  | inf (neg : Bool)
  | nan
  deriving DecidableEq

/-- Rendering of a `float64` by `%15.2f`: the exact binary value rounded to two
decimals, ties to even. -/
def Float64.fmt2 : Float64 → Fixed2
  | .finite s units => .num s (roundHalfEven (units * 100) (2 ^ 1074))
  | .inf s => .inf s
  | .nan => .nan

/-! ## `wallettransactionscmd`: one printed line per transaction -/

/-- The height column: `%12v` of the height, or the text ` unconfirmed`. -/
inductive HeightColumn
  | height (h : Nat)
  | unconfirmed
  deriving DecidableEq

/-- A sign carried next to a non-negative magnitude. -/
structure NetAmount where
  isPositive : Bool
  magnitude : Currency
  deriving DecidableEq

/-- The arguments of the `Printf` calls for one transaction (lines 467-478). -/
structure TxnLine where
  height : HeightColumn
  TransactionID : Nat
  netSiacoins : Float64
  netSiafunds : NetAmount
  deriving DecidableEq

/-- Lines 463-464: `new(big.Rat).SetFrac(c.Big(), types.SiacoinPrecision.Big()).Float64()`. -/
def siacoinsFloat (c : Currency) : Float64 :=
  roundToFloat64 false c.i SiacoinPrecision.i

/-- Lines 467-471. -/
def heightColumn (confirmationHeight : Nat) : HeightColumn :=
  if confirmationHeight < 1000000000 then .height confirmationHeight else .unconfirmed

/-- Lines 474-478: `%14v SF` of `incoming.Sub(outgoing)` or `-%14v SF` of
`outgoing.Sub(incoming)`. -/
def siafundColumn (incomingSiafunds outgoingSiafunds : Currency) : Except CoreError NetAmount :=
  if incomingSiafunds.Cmp outgoingSiafunds ≥ 0 then do
    let d ← incomingSiafunds.Sub outgoingSiafunds
    pure ⟨true, d⟩
  else do
    let d ← outgoingSiafunds.Sub incomingSiafunds
    pure ⟨false, d⟩

/-- The body of `for _, txn := range txns` (lines 435-478). -/
def transactionLine (txn : ProcessedTransaction) : Except CoreError TxnLine := do
  let outgoing := inputLoop txn.Inputs
  let incoming := outputLoop txn.Outputs
  let incomingSiacoinsFloat := siacoinsFloat incoming.1
  let outgoingSiacoinsFloat := siacoinsFloat outgoing.1
  let height := heightColumn txn.ConfirmationHeight
  let netSiafunds ← siafundColumn incoming.2 outgoing.2
  pure ⟨height, txn.TransactionID, incomingSiacoinsFloat.sub outgoingSiacoinsFloat, netSiafunds⟩

/-- The loop `for _, txn := range txns` (lines 434-479): the lines in the order of
the transactions. -/
def transactionLines : List ProcessedTransaction → Except CoreError (List TxnLine)
  | [] => pure []
  | txn :: rest => do
    let line ← transactionLine txn
    let lines ← transactionLines rest
    pure (line :: lines)

/-- The command `wallettransactionscmd`, after a successful `getAPI`: the loop
over `append(wtg.ConfirmedTransactions, wtg.UnconfirmedTransactions...)`. -/
def wallettransactionscmd (wtg : WalletTransactionsGET) : Except CoreError (List TxnLine) :=
  transactionLines (wtg.ConfirmedTransactions ++ wtg.UnconfirmedTransactions)

/-- The spec's net value of step 3 of NetFlow: `(true, larger − smaller)` or
`(false, larger − smaller)`. -/
def specNetFlow (incoming outgoing : Currency) : NetAmount :=
  if outgoing.i ≤ incoming.i then ⟨true, ⟨incoming.i - outgoing.i⟩⟩
  else ⟨false, ⟨outgoing.i - incoming.i⟩⟩

/-- A `float64` count of siacoins is exactly the signed number of hastings `n`:
it is finite, `units · 2^-1074 = magnitude · 10^-24`, and the sign bit is clear
exactly when `n` is marked positive. -/
def Float64.isExactly (f : Float64) (n : NetAmount) : Bool :=
  match f with
  | .finite neg units =>
    decide (units * 10 ^ 24 = n.magnitude.i * 2 ^ 1074) && (neg == !n.isPositive)
  | _ => false

/-- The transaction without its entries whose tag is outside the documented set. -/
def dropUndocumented (txn : ProcessedTransaction) : ProcessedTransaction :=
  { txn with
    Inputs := txn.Inputs.filter (fun input => input.FundType.documented)
    Outputs := txn.Outputs.filter (fun output => output.FundType.documented) }

/-- Two outputs that agree except, for a miner payout, in the `WalletAddress` flag. -/
def sameUpToMinerPayoutFlag (o o' : ProcessedOutput) : Prop :=
  o.FundType = o'.FundType ∧ o.Value = o'.Value ∧
    (o.FundType ≠ SpecifierMinerPayout → o.WalletAddress = o'.WalletAddress)

/-- Two transactions that differ only in the `WalletAddress` flags of miner-payout
outputs. -/
def differOnlyInMinerPayoutFlags (t t' : ProcessedTransaction) : Prop :=
  t.TransactionID = t'.TransactionID ∧ t.ConfirmationHeight = t'.ConfirmationHeight ∧
    t.Inputs = t'.Inputs ∧ List.Forall₂ sameUpToMinerPayoutFlag t.Outputs t'.Outputs

/-! ## `walletbalancecmd` -/

/-- The fields of `api.WalletGET` that `walletbalancecmd` reads. -/
structure WalletGET where
  Encrypted : Bool
  Unlocked : Bool
  ConfirmedSiacoinBalance : Currency
  UnconfirmedOutgoingSiacoins : Currency
  UnconfirmedIncomingSiacoins : Currency
  SiafundBalance : Currency
  SiacoinClaimBalance : Currency
  deriving DecidableEq

/-- The arguments of the `Printf` call that `walletbalancecmd` ends with. -/
inductive BalanceReport
  | locked (encStatus : String)
  | unlocked (encStatus : String) (confirmedBalance : String) (delta : String)
      (exact : Currency) (siafunds : Currency) (siafundClaims : Currency)
  deriving DecidableEq

/-- The command `walletbalancecmd`, after a successful `getAPI` (lines 377-405).
`currencyUnits` is the formatting helper of `siac`, defined outside this file. -/
def walletbalancecmd (currencyUnits : Currency → String) (status : WalletGET) :
    Except CoreError BalanceReport := do
  let encStatus := if status.Encrypted then "Encrypted" else "Unencrypted"
  if !status.Unlocked then
    return .locked encStatus
  let unconfirmedBalance ←
    (status.ConfirmedSiacoinBalance.Add status.UnconfirmedIncomingSiacoins).Sub
      status.UnconfirmedOutgoingSiacoins
  let delta ←
    if unconfirmedBalance.Cmp status.ConfirmedSiacoinBalance ≥ 0 then do
      let d ← unconfirmedBalance.Sub status.ConfirmedSiacoinBalance
      pure ("+" ++ currencyUnits d)
    else do
      let d ← status.ConfirmedSiacoinBalance.Sub unconfirmedBalance
      pure ("-" ++ currencyUnits d)
  return .unlocked encStatus (currencyUnits status.ConfirmedSiacoinBalance) delta
    status.ConfirmedSiacoinBalance status.SiafundBalance status.SiacoinClaimBalance

/-! ## `walletsendsiacoinscmd` and the amount parser (helper outside this file) -/

/-- Modelled from the spec: the UnitTable, the nine unit suffixes with their
power-of-ten exponent relative to the siacoin (pico to tera, in steps of 3). -/
def unitTable : List (String × Int) :=
  [("pS", -12), ("nS", -9), ("uS", -6), ("mS", -3), ("SC", 0),
   ("KS", 3), ("MS", 6), ("GS", 9), ("TS", 12)]

/-- Value of a string of decimal digits. -/
def digitsValue (ds : List Char) : Nat :=
  ds.foldl (fun acc c => 10 * acc + (c.toNat - 48)) 0

/-- Modelled from the spec: the numeric literal "parsed as an exact decimal
number": digits with at most one decimal point and at least one digit.  The
result is the pair `(n, k)` standing for `n / 10^k`. -/
def parseDecimal (literal : List Char) : Option (Nat × Nat) :=
  match literal.span Char.isDigit with
  | (whole, []) => if whole = [] then none else some (digitsValue whole, 0)
  | (whole, c :: frac) =>
    if c = '.' ∧ frac.all Char.isDigit = true ∧ whole ++ frac ≠ [] then
      some (digitsValue (whole ++ frac), frac.length)
    else none

/-- Modelled from the spec: the part of `Parse` after the sign.  The text is a
decimal number followed by an optional unit suffix, looked up in the UnitTable by
exact, case-sensitive match after the numeric prefix is stripped (sections 4.1
and 6).  With a suffix the literal is scaled by `10^(24 + exponent)` and
truncated to whole hastings; with no suffix it is a whole number of hastings, and
a fractional literal is invalid.  A negative value is a ParseError. -/
def parseMagnitude (negative : Bool) (body : List Char) : Except CoreError Currency :=
  match body.span (fun c => c.isDigit || c == '.') with
  | (literal, suffix) =>
    match parseDecimal literal with
    | none => .error .ParseError
    | some (n, k) =>
      if negative = true ∧ n ≠ 0 then .error .ParseError
      else if suffix = [] then
        if k = 0 then .ok ⟨n⟩ else .error .ParseError
      else
        match unitTable.lookup (String.mk suffix) with
        | none => .error .ParseError
        | some e => .ok ⟨n * 10 ^ (24 + e).toNat / 10 ^ k⟩

/-- Modelled from the spec: `Parse(text) → Currency | ParseError` of section 4.1,
the helper `parseCurrency` of `siac` that `walletsendsiacoinscmd` calls: an
optional minus sign, then the magnitude. -/
def parseCurrency (amount : String) : Except CoreError Currency :=
  match amount.data with
  | '-' :: rest => parseMagnitude true rest
  | cs => parseMagnitude false cs

/-- The request that `walletsendsiacoinscmd` hands to `post`: the path and the two
fields of the query string `amount=%s&destination=%s`. -/
structure SiacoinsPost where
  path : String
  amount : Currency
  destination : String
  deriving DecidableEq

/-- The command `walletsendsiacoinscmd` (lines 349-359) up to the call of `post`;
a parse failure ends the command (`die`). -/
def walletsendsiacoinscmd (amount dest : String) : Except CoreError SiacoinsPost := do
  let hastings ← parseCurrency amount
  pure ⟨"/wallet/siacoins", hastings, dest⟩

/-! ## The accumulation loops as sums -/

theorem sumInputs_cons (p : ProcessedInput → Bool) (input : ProcessedInput)
    (rest : List ProcessedInput) :
    sumInputs p (input :: rest) = (if p input = true then input.Value.i else 0) + sumInputs p rest := by
  by_cases h : p input = true <;> simp [sumInputs, List.filter_cons, h]

theorem sumOutputs_cons (p : ProcessedOutput → Bool) (output : ProcessedOutput)
    (rest : List ProcessedOutput) :
    sumOutputs p (output :: rest) =
      (if p output = true then output.Value.i else 0) + sumOutputs p rest := by
  by_cases h : p output = true <;> simp [sumOutputs, List.filter_cons, h]

theorem inputStep_fst (acc : Outgoing) (input : ProcessedInput) :
    (inputStep acc input).1.i = acc.1.i +
      (if input.FundType = SpecifierSiacoinInput ∧ input.WalletAddress = true then
        input.Value.i else 0) := by
  unfold inputStep
  split_ifs <;> simp [Currency.Add]

theorem inputStep_snd (acc : Outgoing) (input : ProcessedInput) :
    (inputStep acc input).2.i = acc.2.i +
      (if input.FundType = SpecifierSiafundInput ∧ input.WalletAddress = true then
        input.Value.i else 0) := by
  unfold inputStep
  split_ifs <;> simp [Currency.Add]

theorem outputStep_fst (acc : Incoming) (output : ProcessedOutput) :
    (outputStep acc output).1.i = acc.1.i +
      ((if output.FundType = SpecifierMinerPayout then output.Value.i else 0) +
        (if output.FundType = SpecifierSiacoinOutput ∧ output.WalletAddress = true then
          output.Value.i else 0)) := by
  unfold outputStep
  split_ifs <;> simp [Currency.Add, Nat.add_assoc]

theorem outputStep_snd (acc : Incoming) (output : ProcessedOutput) :
    (outputStep acc output).2.i = acc.2.i +
      (if output.FundType = SpecifierSiafundOutput ∧ output.WalletAddress = true then
        output.Value.i else 0) := by
  unfold outputStep
  split_ifs <;> simp [Currency.Add]

theorem inputLoop_foldl (inputs : List ProcessedInput) (acc : Outgoing) :
    (inputs.foldl inputStep acc).1.i =
        acc.1.i + sumInputs (fun input =>
          decide (input.FundType = SpecifierSiacoinInput ∧ input.WalletAddress = true)) inputs ∧
      (inputs.foldl inputStep acc).2.i =
        acc.2.i + sumInputs (fun input =>
          decide (input.FundType = SpecifierSiafundInput ∧ input.WalletAddress = true)) inputs := by
  induction inputs generalizing acc with
  | nil => simp [sumInputs]
  | cons input rest ih =>
    rw [List.foldl_cons]
    obtain ⟨h1, h2⟩ := ih (inputStep acc input)
    rw [h1, h2, inputStep_fst, inputStep_snd, sumInputs_cons, sumInputs_cons]
    simp only [decide_eq_true_eq]
    omega

theorem outputLoop_foldl (outputs : List ProcessedOutput) (acc : Incoming) :
    (outputs.foldl outputStep acc).1.i =
        acc.1.i + (sumOutputs (fun output => decide (output.FundType = SpecifierMinerPayout)) outputs +
          sumOutputs (fun output =>
            decide (output.FundType = SpecifierSiacoinOutput ∧ output.WalletAddress = true)) outputs) ∧
      (outputs.foldl outputStep acc).2.i =
        acc.2.i + sumOutputs (fun output =>
          decide (output.FundType = SpecifierSiafundOutput ∧ output.WalletAddress = true)) outputs := by
  induction outputs generalizing acc with
  | nil => simp [sumOutputs]
  | cons output rest ih =>
    rw [List.foldl_cons]
    obtain ⟨h1, h2⟩ := ih (outputStep acc output)
    rw [h1, h2, outputStep_fst, outputStep_snd, sumOutputs_cons, sumOutputs_cons, sumOutputs_cons]
    simp only [decide_eq_true_eq]
    omega

/-- C4: after the input loop, `outgoingSiacoins` is the sum of `Value` over the
wallet-owned siacoin inputs and `outgoingSiafunds` the sum over the wallet-owned
siafund inputs; an input that is not wallet-owned, or of any other type, leaves
both accumulators unchanged. -/
theorem outgoing_eq_sum (txn : ProcessedTransaction) :
    (outgoingSiacoins txn).i =
        sumInputs (fun input =>
          decide (input.FundType = SpecifierSiacoinInput ∧ input.WalletAddress = true)) txn.Inputs ∧
      (outgoingSiafunds txn).i =
        sumInputs (fun input =>
          decide (input.FundType = SpecifierSiafundInput ∧ input.WalletAddress = true)) txn.Inputs ∧
      ∀ (acc : Outgoing) (input : ProcessedInput),
        (input.WalletAddress = false ∨
          (input.FundType ≠ SpecifierSiacoinInput ∧ input.FundType ≠ SpecifierSiafundInput)) →
        inputStep acc input = acc := by
  refine ⟨?_, ?_, ?_⟩
  · have h := (inputLoop_foldl txn.Inputs (Currency.zero, Currency.zero)).1
    simpa [outgoingSiacoins, inputLoop, Currency.zero] using h
  · have h := (inputLoop_foldl txn.Inputs (Currency.zero, Currency.zero)).2
    simpa [outgoingSiafunds, inputLoop, Currency.zero] using h
  · intro acc input h
    rcases h with h | ⟨h1, h2⟩
    · simp [inputStep, h]
    · simp [inputStep, h1, h2]

/-- C4, at a transaction with a wallet-owned siacoin input of 5 H, one of 9 H that
is not wallet-owned, wallet-owned siafund inputs of 4 H and 1 H, and a
wallet-owned input tagged as a miner payout: 5 H of siacoins and 5 H of siafunds
go out. -/
theorem outgoing_eq_sum_witness :
    (outgoingSiacoins ⟨0, 0, [⟨.siacoinInput, true, ⟨5⟩⟩, ⟨.siacoinInput, false, ⟨9⟩⟩,
        ⟨.siafundInput, true, ⟨4⟩⟩, ⟨.minerPayout, true, ⟨7⟩⟩, ⟨.siafundInput, true, ⟨1⟩⟩],
        []⟩).i = 5 ∧
      (outgoingSiafunds ⟨0, 0, [⟨.siacoinInput, true, ⟨5⟩⟩, ⟨.siacoinInput, false, ⟨9⟩⟩,
        ⟨.siafundInput, true, ⟨4⟩⟩, ⟨.minerPayout, true, ⟨7⟩⟩, ⟨.siafundInput, true, ⟨1⟩⟩],
        []⟩).i = 5 ∧
      inputStep (⟨1⟩, ⟨2⟩) ⟨.siacoinInput, false, ⟨9⟩⟩ = (⟨1⟩, ⟨2⟩) :=
  ⟨(outgoing_eq_sum _).1.trans (by decide), (outgoing_eq_sum _).2.1.trans (by decide),
    (outgoing_eq_sum ⟨0, 0, [], []⟩).2.2 (⟨1⟩, ⟨2⟩) ⟨.siacoinInput, false, ⟨9⟩⟩ (Or.inl rfl)⟩

/-- C3: after the output loop, `incomingSiacoins` is the sum of `Value` over all
miner-payout outputs (whatever their `WalletAddress` flag) plus the sum over the
wallet-owned siacoin outputs, and `incomingSiafunds` is the sum over the
wallet-owned siafund outputs; every other output leaves both accumulators
unchanged. -/
theorem incoming_eq_sum (txn : ProcessedTransaction) :
    (incomingSiacoins txn).i =
        sumOutputs (fun output => decide (output.FundType = SpecifierMinerPayout)) txn.Outputs +
          sumOutputs (fun output =>
            decide (output.FundType = SpecifierSiacoinOutput ∧ output.WalletAddress = true))
            txn.Outputs ∧
      (incomingSiafunds txn).i =
        sumOutputs (fun output =>
          decide (output.FundType = SpecifierSiafundOutput ∧ output.WalletAddress = true))
          txn.Outputs ∧
      ∀ (acc : Incoming) (output : ProcessedOutput),
        output.FundType ≠ SpecifierMinerPayout →
        ¬ (output.FundType = SpecifierSiacoinOutput ∧ output.WalletAddress = true) →
        ¬ (output.FundType = SpecifierSiafundOutput ∧ output.WalletAddress = true) →
        outputStep acc output = acc := by
  refine ⟨?_, ?_, ?_⟩
  · have h := (outputLoop_foldl txn.Outputs (Currency.zero, Currency.zero)).1
    simpa [incomingSiacoins, outputLoop, Currency.zero] using h
  · have h := (outputLoop_foldl txn.Outputs (Currency.zero, Currency.zero)).2
    simpa [incomingSiafunds, outputLoop, Currency.zero] using h
  · intro acc output h1 h2 h3
    simp [outputStep, h1, h2, h3]

/-- C3, at a transaction with a miner payout of 2 H whose flag is false, a
wallet-owned siacoin output of 5 H, a siacoin output of 9 H to another address
and siafund outputs of 4 H (wallet-owned) and 8 H (not): 7 H of siacoins and 4 H
of siafunds come in. -/
theorem incoming_eq_sum_witness :
    (incomingSiacoins ⟨0, 0, [], [⟨.minerPayout, false, ⟨2⟩⟩, ⟨.siacoinOutput, true, ⟨5⟩⟩,
        ⟨.siacoinOutput, false, ⟨9⟩⟩, ⟨.siafundOutput, true, ⟨4⟩⟩,
        ⟨.siafundOutput, false, ⟨8⟩⟩]⟩).i = 7 ∧
      (incomingSiafunds ⟨0, 0, [], [⟨.minerPayout, false, ⟨2⟩⟩, ⟨.siacoinOutput, true, ⟨5⟩⟩,
        ⟨.siacoinOutput, false, ⟨9⟩⟩, ⟨.siafundOutput, true, ⟨4⟩⟩,
        ⟨.siafundOutput, false, ⟨8⟩⟩]⟩).i = 4 ∧
      outputStep (⟨1⟩, ⟨2⟩) ⟨.siacoinOutput, false, ⟨9⟩⟩ = (⟨1⟩, ⟨2⟩) :=
  ⟨(incoming_eq_sum _).1.trans (by decide), (incoming_eq_sum _).2.1.trans (by decide),
    (incoming_eq_sum ⟨0, 0, [], []⟩).2.2 (⟨1⟩, ⟨2⟩) ⟨.siacoinOutput, false, ⟨9⟩⟩
      (by decide) (by decide) (by decide)⟩

/-! ## Compare-then-subtract -/

theorem Currency.Cmp_nonneg_iff (x y : Currency) : 0 ≤ x.Cmp y ↔ y.i ≤ x.i := by
  unfold Currency.Cmp
  split_ifs with h1 h2
  · constructor
    · intro h; exact absurd h (by decide)
    · intro h; omega
  · constructor
    · intro _; omega
    · intro _; decide
  · constructor
    · intro _; omega
    · intro _; decide

theorem Currency.Sub_of_le (x y : Currency) (h : y.i ≤ x.i) : x.Sub y = .ok ⟨x.i - y.i⟩ := by
  unfold Currency.Sub
  rw [if_neg (by omega)]

theorem siafundColumn_eq (incoming outgoing : Currency) :
    siafundColumn incoming outgoing = .ok (specNetFlow incoming outgoing) := by
  unfold siafundColumn specNetFlow
  by_cases h : outgoing.i ≤ incoming.i
  · rw [if_pos ((Currency.Cmp_nonneg_iff _ _).2 h), if_pos h, Currency.Sub_of_le _ _ h]
    rfl
  · have h' : ¬ (incoming.Cmp outgoing ≥ 0) := fun hc => h ((Currency.Cmp_nonneg_iff _ _).1 hc)
    rw [if_neg h', if_neg h, Currency.Sub_of_le _ _ (by omega)]
    rfl

theorem transactionLine_eq (txn : ProcessedTransaction) :
    transactionLine txn = .ok
      ⟨heightColumn txn.ConfirmationHeight, txn.TransactionID,
        (siacoinsFloat (incomingSiacoins txn)).sub (siacoinsFloat (outgoingSiacoins txn)),
        specNetFlow (incomingSiafunds txn) (outgoingSiafunds txn)⟩ := by
  unfold transactionLine
  simp only [siafundColumn_eq]
  rfl

theorem transactionLines_forall₂ (txns : List ProcessedTransaction) :
    ∃ lines, transactionLines txns = .ok lines ∧
      List.Forall₂ (fun txn line => transactionLine txn = .ok line) txns lines := by
  induction txns with
  | nil => exact ⟨[], rfl, List.Forall₂.nil⟩
  | cons txn rest ih =>
    obtain ⟨lines, hlines, hall⟩ := ih
    refine ⟨_ :: lines, ?_, List.Forall₂.cons (transactionLine_eq txn) hall⟩
    unfold transactionLines
    rw [transactionLine_eq, hlines]
    rfl

/-- The command prints one line per transaction, confirmed ones first, and each
line is the one `transactionLine` computes for its transaction. -/
theorem wallettransactionscmd_lines (wtg : WalletTransactionsGET) :
    ∃ lines, wallettransactionscmd wtg = .ok lines ∧
      List.Forall₂ (fun txn line => transactionLine txn = .ok line)
        (wtg.ConfirmedTransactions ++ wtg.UnconfirmedTransactions) lines :=
  transactionLines_forall₂ _

/-- C2: the siafund column compares the two accumulators with `Cmp` before it
subtracts.  With `Cmp ≥ 0` (which holds exactly when incoming ≥ outgoing) the
line carries a non-negative net of magnitude incoming − outgoing, otherwise a
negative net of magnitude outgoing − incoming; the `Sub` call of either branch
has minuend ≥ subtrahend and returns a value, so the line is always produced. -/
theorem siafund_net_compare_then_subtract (txn : ProcessedTransaction) :
    (0 ≤ (incomingSiafunds txn).Cmp (outgoingSiafunds txn) ↔
        (outgoingSiafunds txn).i ≤ (incomingSiafunds txn).i) ∧
      (0 ≤ (incomingSiafunds txn).Cmp (outgoingSiafunds txn) →
        (incomingSiafunds txn).Sub (outgoingSiafunds txn) =
            .ok ⟨(incomingSiafunds txn).i - (outgoingSiafunds txn).i⟩ ∧
          siafundColumn (incomingSiafunds txn) (outgoingSiafunds txn) =
            .ok ⟨true, ⟨(incomingSiafunds txn).i - (outgoingSiafunds txn).i⟩⟩) ∧
      (¬ 0 ≤ (incomingSiafunds txn).Cmp (outgoingSiafunds txn) →
        (incomingSiafunds txn).i < (outgoingSiafunds txn).i ∧
          (outgoingSiafunds txn).Sub (incomingSiafunds txn) =
            .ok ⟨(outgoingSiafunds txn).i - (incomingSiafunds txn).i⟩ ∧
          siafundColumn (incomingSiafunds txn) (outgoingSiafunds txn) =
            .ok ⟨false, ⟨(outgoingSiafunds txn).i - (incomingSiafunds txn).i⟩⟩) ∧
      ∃ line, transactionLine txn = .ok line ∧
        line.netSiafunds = specNetFlow (incomingSiafunds txn) (outgoingSiafunds txn) := by
  refine ⟨Currency.Cmp_nonneg_iff _ _, ?_, ?_, ⟨_, transactionLine_eq txn, rfl⟩⟩
  · intro h
    have hle := (Currency.Cmp_nonneg_iff _ _).1 h
    refine ⟨Currency.Sub_of_le _ _ hle, ?_⟩
    rw [siafundColumn_eq, specNetFlow, if_pos hle]
  · intro h
    have hlt : (incomingSiafunds txn).i < (outgoingSiafunds txn).i := by
      by_contra hc
      exact h ((Currency.Cmp_nonneg_iff _ _).2 (by omega))
    refine ⟨hlt, Currency.Sub_of_le _ _ (by omega), ?_⟩
    rw [siafundColumn_eq, specNetFlow, if_neg (by omega)]

/-- C2, at a transaction with 3 siafunds coming in and 5 going out. -/
theorem siafund_net_compare_then_subtract_witness :
    ¬ 0 ≤ (incomingSiafunds ⟨0, 0, [⟨.siafundInput, true, ⟨5⟩⟩],
        [⟨.siafundOutput, true, ⟨3⟩⟩]⟩).Cmp
          (outgoingSiafunds ⟨0, 0, [⟨.siafundInput, true, ⟨5⟩⟩], [⟨.siafundOutput, true, ⟨3⟩⟩]⟩) ∧
      siafundColumn
          (incomingSiafunds ⟨0, 0, [⟨.siafundInput, true, ⟨5⟩⟩], [⟨.siafundOutput, true, ⟨3⟩⟩]⟩)
          (outgoingSiafunds ⟨0, 0, [⟨.siafundInput, true, ⟨5⟩⟩], [⟨.siafundOutput, true, ⟨3⟩⟩]⟩) =
        .ok ⟨false, ⟨2⟩⟩ :=
  ⟨by decide,
    ((siafund_net_compare_then_subtract
      ⟨0, 0, [⟨.siafundInput, true, ⟨5⟩⟩], [⟨.siafundOutput, true, ⟨3⟩⟩]⟩).2.2.1 (by decide)).2.2⟩

/-! ## The height column -/

/-- C8: the line of a transaction shows the literal block height exactly when
`ConfirmationHeight` is below 10^9 and the text `unconfirmed` exactly when it is
at or above 10^9; heights 0 and 10^9 − 1 are shown as heights, 10^9 as
unconfirmed. -/
theorem height_column_threshold (txn : ProcessedTransaction) :
    ∃ line, transactionLine txn = .ok line ∧
      (line.height = .height txn.ConfirmationHeight ↔ txn.ConfirmationHeight < 10 ^ 9) ∧
      (line.height = .unconfirmed ↔ 10 ^ 9 ≤ txn.ConfirmationHeight) ∧
      heightColumn 0 = .height 0 ∧
      heightColumn (10 ^ 9 - 1) = .height (10 ^ 9 - 1) ∧
      heightColumn (10 ^ 9) = .unconfirmed := by
  refine ⟨_, transactionLine_eq txn, ?_, ?_, by decide, by decide, by decide⟩
  · show heightColumn txn.ConfirmationHeight = _ ↔ _
    unfold heightColumn
    by_cases h : txn.ConfirmationHeight < 1000000000
    · simp [h]
    · simp [h]
  · show heightColumn txn.ConfirmationHeight = _ ↔ _
    unfold heightColumn
    by_cases h : txn.ConfirmationHeight < 1000000000
    · simp [h]
    · simp [h]; omega

/-! ## `walletbalancecmd` -/

/-- C10: for an unlocked wallet whose unconfirmed outgoing siacoins do not exceed
confirmed balance plus unconfirmed incoming siacoins, the delta is `+` followed
by the rendering of incoming − outgoing when incoming ≥ outgoing and `-` followed
by the rendering of outgoing − incoming otherwise; the confirmed balance does not
occur in the magnitude. -/
theorem balance_delta (currencyUnits : Currency → String) (status : WalletGET)
    (hunlocked : status.Unlocked = true)
    (hbound : status.UnconfirmedOutgoingSiacoins.i ≤
      status.ConfirmedSiacoinBalance.i + status.UnconfirmedIncomingSiacoins.i) :
    walletbalancecmd currencyUnits status = .ok
      (.unlocked (if status.Encrypted then "Encrypted" else "Unencrypted")
        (currencyUnits status.ConfirmedSiacoinBalance)
        (if status.UnconfirmedOutgoingSiacoins.i ≤ status.UnconfirmedIncomingSiacoins.i then
          "+" ++ currencyUnits
            ⟨status.UnconfirmedIncomingSiacoins.i - status.UnconfirmedOutgoingSiacoins.i⟩
        else
          "-" ++ currencyUnits
            ⟨status.UnconfirmedOutgoingSiacoins.i - status.UnconfirmedIncomingSiacoins.i⟩)
        status.ConfirmedSiacoinBalance status.SiafundBalance status.SiacoinClaimBalance) := by
  obtain ⟨enc, unl, ⟨c⟩, ⟨o⟩, ⟨n⟩, sf, cl⟩ := status
  simp only at hunlocked hbound
  subst hunlocked
  by_cases h : o ≤ n
  · have h1 : ¬ (c + n < o) := by omega
    have h2 : ¬ (c + n - o < c) := by omega
    have h3 : c + n - o - c = n - o := by omega
    simp [walletbalancecmd, Currency.Add, Currency.Sub, Currency.Cmp, h, h1, h2, h3, bind,
      Except.bind, pure, Except.pure]
    split_ifs <;> simp_all
  · have h1 : ¬ (c + n < o) := by omega
    have h2 : c + n - o < c := by omega
    have h3 : c - (c + n - o) = o - n := by omega
    have h4 : ¬ (c < c + n - o) := by omega
    simp [walletbalancecmd, Currency.Add, Currency.Sub, Currency.Cmp, h, h1, h2, h3, h4, bind,
      Except.bind, pure, Except.pure]

/-- C10, at an encrypted, unlocked wallet with 10 H confirmed, 3 H incoming and 1 H
outgoing: the delta is `+` followed by the rendering of 2 H. -/
theorem balance_delta_witness :
    (1 ≤ 10 + 3) ∧
      walletbalancecmd (fun c => toString c.i) ⟨true, true, ⟨10⟩, ⟨1⟩, ⟨3⟩, ⟨0⟩, ⟨0⟩⟩ =
        .ok (.unlocked "Encrypted" "10" "+2" ⟨10⟩ ⟨0⟩ ⟨0⟩) :=
  ⟨by decide,
    balance_delta (fun c => toString c.i) ⟨true, true, ⟨10⟩, ⟨1⟩, ⟨3⟩, ⟨0⟩, ⟨0⟩⟩ rfl (by decide)⟩

/-- C7: with nothing confirmed, nothing incoming and 1 H outgoing, the first
subtraction of `walletbalancecmd` (line 389, not preceded by a `Cmp`) has a
minuend smaller than its subtrahend, so the command ends in a
PreconditionViolation; the two later subtractions are each behind a `Cmp`. -/
theorem walletbalancecmd_unguarded_sub (currencyUnits : Currency → String) :
    walletbalancecmd currencyUnits ⟨false, true, ⟨0⟩, ⟨1⟩, ⟨0⟩, ⟨0⟩, ⟨0⟩⟩ =
        .error .PreconditionViolation ∧
      ((⟨0⟩ : Currency).Add ⟨0⟩).Sub ⟨1⟩ = .error .PreconditionViolation ∧
      ∀ unconfirmedBalance confirmed : Currency,
        (0 ≤ unconfirmedBalance.Cmp confirmed →
          ∃ d, unconfirmedBalance.Sub confirmed = .ok d) ∧
        (¬ 0 ≤ unconfirmedBalance.Cmp confirmed →
          ∃ d, confirmed.Sub unconfirmedBalance = .ok d) := by
  refine ⟨rfl, rfl, ?_⟩
  intro u c
  constructor
  · intro h
    exact ⟨_, Currency.Sub_of_le _ _ ((Currency.Cmp_nonneg_iff _ _).1 h)⟩
  · intro h
    have hlt : u.i < c.i := by
      by_contra hc
      exact h ((Currency.Cmp_nonneg_iff _ _).2 (by omega))
    exact ⟨_, Currency.Sub_of_le _ _ (by omega)⟩

/-! ## Entries with an undocumented tag -/

theorem inputStep_undocumented (acc : Outgoing) (input : ProcessedInput)
    (h : input.FundType.documented = false) : inputStep acc input = acc := by
  obtain ⟨ft, w, v⟩ := input
  cases ft <;> simp [Specifier.documented] at h
  simp [inputStep, SpecifierSiacoinInput, SpecifierSiafundInput]

theorem outputStep_undocumented (acc : Incoming) (output : ProcessedOutput)
    (h : output.FundType.documented = false) : outputStep acc output = acc := by
  obtain ⟨ft, w, v⟩ := output
  cases ft <;> simp [Specifier.documented] at h
  simp [outputStep, SpecifierMinerPayout, SpecifierSiacoinOutput, SpecifierSiafundOutput]

theorem foldl_filter_of_skip {α β : Type} (step : β → α → β) (p : α → Bool)
    (hskip : ∀ acc a, p a = false → step acc a = acc) (l : List α) (acc : β) :
    (l.filter p).foldl step acc = l.foldl step acc := by
  induction l generalizing acc with
  | nil => rfl
  | cons a rest ih =>
    by_cases h : p a = true
    · rw [List.filter_cons_of_pos h, List.foldl_cons, List.foldl_cons, ih]
    · have hf : p a = false := by simpa using h
      rw [List.filter_cons_of_neg h, List.foldl_cons, hskip acc a hf, ih]

theorem transactionLine_dropUndocumented (txn : ProcessedTransaction) :
    transactionLine (dropUndocumented txn) = transactionLine txn := by
  have hin : inputLoop (dropUndocumented txn).Inputs = inputLoop txn.Inputs :=
    foldl_filter_of_skip inputStep _ (fun acc a h => inputStep_undocumented acc a h) _ _
  have hout : outputLoop (dropUndocumented txn).Outputs = outputLoop txn.Outputs :=
    foldl_filter_of_skip outputStep _ (fun acc a h => outputStep_undocumented acc a h) _ _
  unfold transactionLine
  rw [hin, hout]
  rfl

/-- C6, refuted: a transaction with a wallet-owned input of 5 H and a wallet-owned
output of 7 H, both tagged outside the documented set, does not end in an
UnrecognizedFundType error; its line is produced with both entries left out of
every accumulator (net siacoins +0, net siafunds +0). -/
theorem undocumented_tag_not_rejected :
    (∃ input ∈ (⟨0, 0, [⟨.other 0, true, ⟨5⟩⟩], [⟨.other 1, true, ⟨7⟩⟩]⟩ :
        ProcessedTransaction).Inputs, input.FundType.documented = false) ∧
      transactionLine ⟨0, 0, [⟨.other 0, true, ⟨5⟩⟩], [⟨.other 1, true, ⟨7⟩⟩]⟩ ≠
        .error .UnrecognizedFundType ∧
      transactionLine ⟨0, 0, [⟨.other 0, true, ⟨5⟩⟩], [⟨.other 1, true, ⟨7⟩⟩]⟩ =
        .ok ⟨.height 0, 0, .finite false 0, ⟨true, ⟨0⟩⟩⟩ := by
  decide

/-- C6, amended: the net-flow computation of a transaction never fails, whatever
the tags of its entries; an entry whose tag is outside the documented set is
skipped by both loops, so the line equals that of the transaction with those
entries removed. -/
theorem undocumented_tag_ignored (txn : ProcessedTransaction) :
    (∃ line, transactionLine txn = .ok line) ∧
      transactionLine txn = transactionLine (dropUndocumented txn) ∧
      (∀ (acc : Outgoing) (input : ProcessedInput),
        input.FundType.documented = false → inputStep acc input = acc) ∧
      (∀ (acc : Incoming) (output : ProcessedOutput),
        output.FundType.documented = false → outputStep acc output = acc) :=
  ⟨⟨_, transactionLine_eq txn⟩, (transactionLine_dropUndocumented txn).symm,
    inputStep_undocumented, outputStep_undocumented⟩

/-- C6 amended, at an undocumented wallet-owned input of 5 H: the step leaves the
accumulators `(1 H, 2 H)` as they are. -/
theorem undocumented_tag_ignored_witness :
    inputStep (⟨1⟩, ⟨2⟩) ⟨.other 0, true, ⟨5⟩⟩ = (⟨1⟩, ⟨2⟩) :=
  (undocumented_tag_ignored ⟨0, 0, [], []⟩).2.2.1 (⟨1⟩, ⟨2⟩) ⟨.other 0, true, ⟨5⟩⟩ rfl

/-! ## binary64: values that are represented exactly -/

theorem normShift_le (fuel q s : Nat) (h : q / 2 ^ s < 2 ^ 53) : normShift fuel q ≤ s := by
  induction fuel generalizing q s with
  | zero => simp [normShift]
  | succ fuel ih =>
    unfold normShift
    split_ifs with hq
    · exact Nat.zero_le _
    · cases s with
      | zero => simp at h; exact absurd h hq
      | succ s =>
        have h' : q / 2 / 2 ^ s < 2 ^ 53 := by
          rw [Nat.div_div_eq_div_mul, ← Nat.pow_succ']
          exact h
        have := ih (q / 2) s h'
        omega

theorem roundHalfEven_mul_right (m b : Nat) (hb : 0 < b) : roundHalfEven (m * b) b = m := by
  unfold roundHalfEven
  simp [Nat.mul_mod_left, Nat.mul_div_cancel _ hb, hb]

theorem roundToFloat64_mul_right (neg : Bool) (c d : Nat) (hd : 0 < d) (hc : c < 2 ^ 53) :
    roundToFloat64 neg (c * d) d = .finite neg (c * 2 ^ 1074) := by
  have hq : c * d * 2 ^ 1074 / d = c * 2 ^ 1074 := by
    rw [Nat.mul_right_comm, Nat.mul_div_cancel _ hd]
  have hs : normShift (c * 2 ^ 1074) (c * 2 ^ 1074) ≤ 1074 := by
    apply normShift_le
    rw [Nat.mul_div_cancel _ (Nat.pos_pow_of_pos 1074 (by decide))]
    exact hc
  obtain ⟨k, hk⟩ : ∃ k, 1074 = normShift (c * 2 ^ 1074) (c * 2 ^ 1074) + k :=
    ⟨1074 - normShift (c * 2 ^ 1074) (c * 2 ^ 1074), by omega⟩
  have hpos : 0 < d * 2 ^ normShift (c * 2 ^ 1074) (c * 2 ^ 1074) :=
    Nat.mul_pos hd (Nat.pos_pow_of_pos _ (by decide))
  have hsplit : (2 : Nat) ^ 1074 =
      2 ^ k * 2 ^ normShift (c * 2 ^ 1074) (c * 2 ^ 1074) := by
    conv_lhs => rw [hk]
    rw [Nat.pow_add, Nat.mul_comm]
  have hscaled : c * d * 2 ^ 1074 =
      c * 2 ^ k * (d * 2 ^ normShift (c * 2 ^ 1074) (c * 2 ^ 1074)) := by
    conv_lhs => rw [hsplit]
    ring
  have hunits : c * 2 ^ k * 2 ^ normShift (c * 2 ^ 1074) (c * 2 ^ 1074) = c * 2 ^ 1074 := by
    conv_rhs => rw [hsplit]
    ring
  have hlt : c * 2 ^ 1074 < 2 ^ 2098 := by
    calc c * 2 ^ 1074 < 2 ^ 53 * 2 ^ 1074 :=
          Nat.mul_lt_mul_of_pos_right hc (Nat.pos_pow_of_pos 1074 (by decide))
      _ ≤ 2 ^ 2098 := by rw [← Nat.pow_add]; exact Nat.pow_le_pow_right (by decide) (by decide)
  have hunits' : roundedUnits (c * d) d = c * 2 ^ 1074 := by
    unfold roundedUnits
    simp only [hq]
    rw [hscaled, roundHalfEven_mul_right _ _ hpos, hunits]
  unfold roundToFloat64
  rw [hunits', if_pos hlt]

theorem siacoinsFloat_whole (a : Nat) (ha : a < 2 ^ 53) :
    siacoinsFloat ⟨a * 10 ^ 24⟩ = .finite false (a * 2 ^ 1074) := by
  unfold siacoinsFloat SiacoinPrecision
  exact roundToFloat64_mul_right false a (10 ^ 24) (by decide) ha

theorem Float64.sub_whole (a b : Nat) (ha : a < 2 ^ 53) (hb : b < 2 ^ 53) :
    (Float64.finite false (a * 2 ^ 1074)).sub (.finite false (b * 2 ^ 1074)) =
      .finite (decide (a < b)) ((max a b - min a b) * 2 ^ 1074) := by
  have hp : (0 : Nat) < 2 ^ 1074 := Nat.pos_pow_of_pos 1074 (by decide)
  unfold Float64.sub
  simp only [Bool.false_eq_true, if_false]
  by_cases hab : a = b
  · subst hab
    simp
  · have hne : ((a * 2 ^ 1074 : Nat) : Int) - ((b * 2 ^ 1074 : Nat) : Int) ≠ 0 := by
      intro h
      have h' : a * 2 ^ 1074 = b * 2 ^ 1074 := by omega
      exact hab (Nat.eq_of_mul_eq_mul_right hp h')
    rw [if_neg hne]
    have hlt : (((a * 2 ^ 1074 : Nat) : Int) - ((b * 2 ^ 1074 : Nat) : Int) < 0) ↔ a < b := by
      constructor
      · intro h
        have h' : a * 2 ^ 1074 < b * 2 ^ 1074 := by omega
        exact Nat.lt_of_mul_lt_mul_right h'
      · intro h
        have h' : a * 2 ^ 1074 < b * 2 ^ 1074 := Nat.mul_lt_mul_of_pos_right h hp
        omega
    have habs : (((a * 2 ^ 1074 : Nat) : Int) - ((b * 2 ^ 1074 : Nat) : Int)).natAbs =
        (max a b - min a b) * 2 ^ 1074 := by
      rw [Nat.sub_mul]
      rcases Nat.lt_or_ge a b with h | h
      · have h' : a * 2 ^ 1074 < b * 2 ^ 1074 := Nat.mul_lt_mul_of_pos_right h hp
        rw [max_eq_right (le_of_lt h), min_eq_left (le_of_lt h)]
        omega
      · have h' : b * 2 ^ 1074 ≤ a * 2 ^ 1074 := Nat.mul_le_mul_right _ h
        rw [max_eq_left h, min_eq_right h]
        omega
    have hc : max a b - min a b < 2 ^ 53 := by
      rcases Nat.lt_or_ge a b with h | h
      · rw [max_eq_right (le_of_lt h)]; omega
      · rw [max_eq_left h]; omega
    rw [habs, roundToFloat64_mul_right _ _ _ hp hc]
    simp only [hlt]

/-! ## binary64: rounding is monotone -/

theorem normShift_spec (fuel q : Nat) (h : q ≤ fuel) : q / 2 ^ normShift fuel q < 2 ^ 53 := by
  induction fuel generalizing q with
  | zero =>
    have : q = 0 := by omega
    subst this
    simp [normShift]
  | succ fuel ih =>
    unfold normShift
    split_ifs with hq
    · simpa using hq
    · have h2 : q / 2 ≤ fuel := by
        have : 2 ≤ q := le_trans (by decide) (Nat.le_of_not_lt hq)
        omega
      have := ih (q / 2) h2
      rwa [Nat.div_div_eq_div_mul, ← Nat.pow_succ'] at this

theorem normShift_min (fuel q : Nat) (h : 0 < normShift fuel q) :
    2 ^ 53 ≤ q / 2 ^ (normShift fuel q - 1) := by
  induction fuel generalizing q with
  | zero => simp [normShift] at h
  | succ fuel ih =>
    unfold normShift at h ⊢
    split_ifs at h ⊢ with hq
    · exact absurd h (by decide)
    · simp only [Nat.add_sub_cancel]
      rcases Nat.eq_zero_or_pos (normShift fuel (q / 2)) with h0 | hpos
      · rw [h0]
        simpa using Nat.le_of_not_lt hq
      · have := ih (q / 2) hpos
        rw [Nat.div_div_eq_div_mul, ← Nat.pow_succ'] at this
        have hs : (normShift fuel (q / 2) - 1).succ = normShift fuel (q / 2) := by omega
        rwa [hs] at this

theorem normShift_mono (q q' : Nat) (h : q ≤ q') : normShift q q ≤ normShift q' q' := by
  apply normShift_le
  exact lt_of_le_of_lt (Nat.div_le_div_right h) (normShift_spec q' q' (le_refl _))

theorem roundHalfEven_ge (a b : Nat) : a / b ≤ roundHalfEven a b := by
  unfold roundHalfEven
  simp only
  split_ifs <;> omega

theorem roundHalfEven_le (a b : Nat) : roundHalfEven a b ≤ a / b + 1 := by
  unfold roundHalfEven
  simp only
  split_ifs <;> omega

theorem roundHalfEven_mono (a a' b : Nat) (h : a ≤ a') :
    roundHalfEven a b ≤ roundHalfEven a' b := by
  have hq : a / b ≤ a' / b := Nat.div_le_div_right h
  rcases Nat.lt_or_ge (a / b) (a' / b) with hlt | hge
  · exact le_trans (roundHalfEven_le a b) (le_trans hlt (roundHalfEven_ge a' b))
  · have heq : a / b = a' / b := le_antisymm hq hge
    have hr : a % b ≤ a' % b := by
      have h1 := Nat.div_add_mod a b
      have h2 := Nat.div_add_mod a' b
      rw [heq] at h1
      omega
    unfold roundHalfEven
    simp only [heq]
    split_ifs <;> omega

theorem roundedUnits_mono (a a' b : Nat) (h : a ≤ a') :
    roundedUnits a b ≤ roundedUnits a' b := by
  have hS : a * 2 ^ 1074 ≤ a' * 2 ^ 1074 := Nat.mul_le_mul_right _ h
  have hq : a * 2 ^ 1074 / b ≤ a' * 2 ^ 1074 / b := Nat.div_le_div_right hS
  have hs := normShift_mono _ _ hq
  unfold roundedUnits
  simp only
  generalize hsdef : normShift (a * 2 ^ 1074 / b) (a * 2 ^ 1074 / b) = s at hs
  generalize hsdef' : normShift (a' * 2 ^ 1074 / b) (a' * 2 ^ 1074 / b) = s' at hs
  rcases Nat.eq_or_lt_of_le hs with heq | hlt
  · subst heq
    exact Nat.mul_le_mul_right _
      (roundHalfEven_mono _ _ _ hS)
  · -- the smaller value rounds to at most 2^53 · 2^s
    have h1 : roundHalfEven (a * 2 ^ 1074) (b * 2 ^ s) ≤ 2 ^ 53 := by
      have hspec := normShift_spec (a * 2 ^ 1074 / b) (a * 2 ^ 1074 / b) (le_refl _)
      rw [hsdef, Nat.div_div_eq_div_mul] at hspec
      exact le_trans (roundHalfEven_le _ _) hspec
    -- the larger value rounds to at least 2^52 · 2^s'
    have h2 : 2 ^ 52 ≤ roundHalfEven (a' * 2 ^ 1074) (b * 2 ^ s') := by
      have hpos : 0 < normShift (a' * 2 ^ 1074 / b) (a' * 2 ^ 1074 / b) := by omega
      have hmin := normShift_min (a' * 2 ^ 1074 / b) (a' * 2 ^ 1074 / b) hpos
      rw [hsdef'] at hmin
      have hpow : (2 : Nat) ^ s' = 2 ^ (s' - 1) * 2 := by
        rw [← Nat.pow_succ]
        congr 1
        omega
      have hhalf : a' * 2 ^ 1074 / b / 2 ^ s' = a' * 2 ^ 1074 / b / 2 ^ (s' - 1) / 2 := by
        rw [hpow, Nat.div_div_eq_div_mul _ (2 ^ (s' - 1)) 2]
      have hge : 2 ^ 52 ≤ a' * 2 ^ 1074 / (b * 2 ^ s') := by
        rw [← Nat.div_div_eq_div_mul, hhalf]
        omega
      exact le_trans hge (roundHalfEven_ge _ _)
    obtain ⟨k, hk⟩ : ∃ k, s' = s + 1 + k := ⟨s' - (s + 1), by omega⟩
    calc roundHalfEven (a * 2 ^ 1074) (b * 2 ^ s) * 2 ^ s
        ≤ 2 ^ 53 * 2 ^ s := Nat.mul_le_mul_right _ h1
      _ = 2 ^ 52 * 2 ^ (s + 1) := by rw [Nat.pow_succ]; ring
      _ ≤ 2 ^ 52 * 2 ^ s' := by
          apply Nat.mul_le_mul_left
          exact Nat.pow_le_pow_right (by decide) (by omega)
      _ ≤ roundHalfEven (a' * 2 ^ 1074) (b * 2 ^ s') * 2 ^ s' := Nat.mul_le_mul_right _ h2

theorem isNegative_roundToFloat64 (a b : Nat) :
    (roundToFloat64 false a b).isNegative = false := by
  unfold roundToFloat64
  split_ifs
  · cases roundedUnits a b <;> rfl
  · rfl

theorem isPositive_roundToFloat64 (a b : Nat) :
    (roundToFloat64 true a b).isPositive = false := by
  unfold roundToFloat64
  split_ifs
  · cases roundedUnits a b <;> rfl
  · rfl

theorem sub_sign (incoming outgoing : Currency) :
    (outgoing.i ≤ incoming.i →
        ((siacoinsFloat incoming).sub (siacoinsFloat outgoing)).isNegative = false) ∧
      (incoming.i < outgoing.i →
        ((siacoinsFloat incoming).sub (siacoinsFloat outgoing)).isPositive = false) := by
  unfold siacoinsFloat roundToFloat64
  generalize hu : roundedUnits incoming.i SiacoinPrecision.i = u
  generalize hv : roundedUnits outgoing.i SiacoinPrecision.i = v
  constructor
  · intro h
    have hvu : v ≤ u := by
      rw [← hu, ← hv]; exact roundedUnits_mono _ _ _ h
    by_cases h1 : u < 2 ^ 2098
    · have h2 : v < 2 ^ 2098 := lt_of_le_of_lt hvu h1
      rw [if_pos h1, if_pos h2]
      unfold Float64.sub
      simp only [Bool.false_eq_true, if_false]
      split_ifs with hD
      · rfl
      · have hneg : ¬ ((u : Int) - (v : Int) < 0) := by omega
        rw [decide_eq_false hneg]
        exact isNegative_roundToFloat64 _ _
    · rw [if_neg h1]
      by_cases h2 : v < 2 ^ 2098
      · rw [if_pos h2]; rfl
      · rw [if_neg h2]; rfl
  · intro h
    have huv : u ≤ v := by
      rw [← hu, ← hv]; exact roundedUnits_mono _ _ _ (le_of_lt h)
    by_cases h2 : v < 2 ^ 2098
    · have h1 : u < 2 ^ 2098 := lt_of_le_of_lt huv h2
      rw [if_pos h1, if_pos h2]
      unfold Float64.sub
      simp only [Bool.false_eq_true, if_false]
      split_ifs with hD
      · rfl
      · have hneg : (u : Int) - (v : Int) < 0 := by omega
        rw [decide_eq_true hneg]
        exact isPositive_roundToFloat64 _ _
    · rw [if_neg h2]
      by_cases h1 : u < 2 ^ 2098
      · rw [if_pos h1]; rfl
      · rw [if_neg h1]; rfl

/-! ## The siacoin column -/

theorem isExactly_whole (a b : Nat) :
    Float64.isExactly (.finite (decide (a < b)) ((max a b - min a b) * 2 ^ 1074))
      (specNetFlow ⟨a * 10 ^ 24⟩ ⟨b * 10 ^ 24⟩) = true := by
  have hp : (0 : Nat) < 10 ^ 24 := by decide
  unfold Float64.isExactly specNetFlow
  rcases Nat.lt_or_ge a b with h | h
  · have h' : ¬ (b * 10 ^ 24 ≤ a * 10 ^ 24) := by
      intro hc
      exact absurd (Nat.le_of_mul_le_mul_right hc hp) (by omega)
    simp only [if_neg h', max_eq_right (le_of_lt h), min_eq_left (le_of_lt h)]
    simp only [Bool.and_eq_true, decide_eq_true_eq, beq_iff_eq]
    refine ⟨?_, by simp [h]⟩
    rw [← Nat.sub_mul]
    ring
  · have h' : b * 10 ^ 24 ≤ a * 10 ^ 24 := Nat.mul_le_mul_right _ h
    simp only [if_pos h', max_eq_left h, min_eq_right h]
    simp only [Bool.and_eq_true, decide_eq_true_eq, beq_iff_eq]
    refine ⟨?_, by simp; omega⟩
    rw [← Nat.sub_mul]
    ring

/-- C1, refuted: for a transaction whose only entry is a wallet-owned siacoin
output of 1 hasting the exact net flow is (true, 1 H), but the line carries the
binary64 number nearest to 10^-24, which is not that value, and `%15.2f` prints
it as 0.00 SC. -/
theorem netSiacoins_rounded :
    transactionLine ⟨0, 0, [], [⟨.siacoinOutput, true, ⟨1⟩⟩]⟩ =
        .ok ⟨.height 0, 0, .finite false (5444517870735015 * 2 ^ 942), ⟨true, ⟨0⟩⟩⟩ ∧
      specNetFlow (incomingSiacoins ⟨0, 0, [], [⟨.siacoinOutput, true, ⟨1⟩⟩]⟩)
          (outgoingSiacoins ⟨0, 0, [], [⟨.siacoinOutput, true, ⟨1⟩⟩]⟩) = ⟨true, ⟨1⟩⟩ ∧
      Float64.isExactly (.finite false (5444517870735015 * 2 ^ 942)) ⟨true, ⟨1⟩⟩ = false ∧
      Float64.fmt2 (.finite false (5444517870735015 * 2 ^ 942)) = .num false 0 := by
  decide

/-- C1, amended: the net siacoin flow of a line is the binary64 difference of the
two accumulators, each first divided by 10^24 and rounded to binary64.  Its sign
never contradicts the exact net: it is not below zero when incoming ≥ outgoing
and not above zero when incoming < outgoing.  When both accumulators are whole
numbers of siacoins below 2^53 SC, the float is exactly incoming − outgoing, with
the sign bit set exactly when outgoing is the larger, and `%15.2f` prints the
exact amount. -/
theorem netSiacoins_float (txn : ProcessedTransaction) :
    ∃ line, transactionLine txn = .ok line ∧
      line.netSiacoins =
        (siacoinsFloat (incomingSiacoins txn)).sub (siacoinsFloat (outgoingSiacoins txn)) ∧
      ((outgoingSiacoins txn).i ≤ (incomingSiacoins txn).i →
        line.netSiacoins.isNegative = false) ∧
      ((incomingSiacoins txn).i < (outgoingSiacoins txn).i →
        line.netSiacoins.isPositive = false) ∧
      ∀ a b : Nat, (incomingSiacoins txn).i = a * 10 ^ 24 →
        (outgoingSiacoins txn).i = b * 10 ^ 24 → a < 2 ^ 53 → b < 2 ^ 53 →
        line.netSiacoins = .finite (decide (a < b)) ((max a b - min a b) * 2 ^ 1074) ∧
        line.netSiacoins.isExactly
          (specNetFlow (incomingSiacoins txn) (outgoingSiacoins txn)) = true ∧
        line.netSiacoins.fmt2 = .num (decide (a < b)) ((max a b - min a b) * 100) := by
  refine ⟨_, transactionLine_eq txn, rfl, (sub_sign _ _).1, (sub_sign _ _).2, ?_⟩
  intro a b hin hout ha hb
  have hi : incomingSiacoins txn = ⟨a * 10 ^ 24⟩ := by
    cases h : incomingSiacoins txn; rw [h] at hin; simpa using hin
  have ho : outgoingSiacoins txn = ⟨b * 10 ^ 24⟩ := by
    cases h : outgoingSiacoins txn; rw [h] at hout; simpa using hout
  have hnet : (siacoinsFloat (incomingSiacoins txn)).sub (siacoinsFloat (outgoingSiacoins txn)) =
      .finite (decide (a < b)) ((max a b - min a b) * 2 ^ 1074) := by
    rw [hi, ho, siacoinsFloat_whole a ha, siacoinsFloat_whole b hb, Float64.sub_whole a b ha hb]
  refine ⟨hnet, ?_, ?_⟩
  · show Float64.isExactly _ _ = true
    rw [hnet, hi, ho]
    exact isExactly_whole a b
  · show Float64.fmt2 ((siacoinsFloat (incomingSiacoins txn)).sub
      (siacoinsFloat (outgoingSiacoins txn))) = _
    rw [hnet]
    show Fixed2.num _ (roundHalfEven ((max a b - min a b) * 2 ^ 1074 * 100) (2 ^ 1074)) = _
    rw [Nat.mul_right_comm, roundHalfEven_mul_right _ _ (Nat.pos_pow_of_pos 1074 (by decide))]

/-- C1 amended, at the scenario of the spec: a wallet-owned siacoin input of
500 SC, a wallet-owned siacoin output of 300 SC and a siacoin output of 190 SC
to another address give outgoing = 500 SC, incoming = 300 SC and a net of
exactly −200 SC, printed as -200.00 SC. -/
theorem netSiacoins_float_witness :
    (outgoingSiacoins ⟨0, 0, [⟨.siacoinInput, true, ⟨500 * 10 ^ 24⟩⟩],
        [⟨.siacoinOutput, true, ⟨300 * 10 ^ 24⟩⟩, ⟨.siacoinOutput, false, ⟨190 * 10 ^ 24⟩⟩]⟩).i =
        500 * 10 ^ 24 ∧
      (incomingSiacoins ⟨0, 0, [⟨.siacoinInput, true, ⟨500 * 10 ^ 24⟩⟩],
        [⟨.siacoinOutput, true, ⟨300 * 10 ^ 24⟩⟩, ⟨.siacoinOutput, false, ⟨190 * 10 ^ 24⟩⟩]⟩).i =
        300 * 10 ^ 24 ∧
      ∃ line,
        transactionLine ⟨0, 0, [⟨.siacoinInput, true, ⟨500 * 10 ^ 24⟩⟩],
          [⟨.siacoinOutput, true, ⟨300 * 10 ^ 24⟩⟩, ⟨.siacoinOutput, false, ⟨190 * 10 ^ 24⟩⟩]⟩ =
            .ok line ∧
        line.netSiacoins.isPositive = false ∧
        line.netSiacoins = .finite true (200 * 2 ^ 1074) ∧
        line.netSiacoins.isExactly ⟨false, ⟨200 * 10 ^ 24⟩⟩ = true ∧
        line.netSiacoins.fmt2 = .num true 20000 := by
  refine ⟨by decide, by decide, ?_⟩
  obtain ⟨line, h1, _, _, h3, h4⟩ :=
    netSiacoins_float
      ⟨0, 0, [⟨.siacoinInput, true, ⟨500 * 10 ^ 24⟩⟩],
        [⟨.siacoinOutput, true, ⟨300 * 10 ^ 24⟩⟩, ⟨.siacoinOutput, false, ⟨190 * 10 ^ 24⟩⟩]⟩
  obtain ⟨h5, h6, h7⟩ := h4 300 500 (by decide) (by decide) (by decide) (by decide)
  exact ⟨line, h1, h3 (by decide), h5, h6, h7⟩

/-! ## Miner payouts and the `WalletAddress` flag -/

theorem outputStep_sameUpToMinerPayoutFlag (acc : Incoming) (o o' : ProcessedOutput)
    (h : sameUpToMinerPayoutFlag o o') : outputStep acc o = outputStep acc o' := by
  obtain ⟨ft, w, v⟩ := o
  obtain ⟨ft', w', v'⟩ := o'
  obtain ⟨h1, h2, h3⟩ := h
  simp only at h1 h2 h3
  subst h1 h2
  by_cases hm : ft = SpecifierMinerPayout
  · subst hm
    simp [outputStep, SpecifierMinerPayout, SpecifierSiacoinOutput, SpecifierSiafundOutput]
  · rw [h3 hm]

theorem outputLoop_forall₂ (os os' : List ProcessedOutput)
    (h : List.Forall₂ sameUpToMinerPayoutFlag os os') (acc : Incoming) :
    os.foldl outputStep acc = os'.foldl outputStep acc := by
  induction h generalizing acc with
  | nil => rfl
  | cons hhead _ ih =>
    rw [List.foldl_cons, List.foldl_cons, outputStep_sameUpToMinerPayoutFlag acc _ _ hhead, ih]

/-- C5: two transactions that differ only in the `WalletAddress` flags of their
miner-payout outputs have the same `incomingSiacoins` and the same printed line,
net siacoins included. -/
theorem miner_payout_flag_irrelevant (t t' : ProcessedTransaction)
    (h : differOnlyInMinerPayoutFlags t t') :
    incomingSiacoins t = incomingSiacoins t' ∧
      (siacoinsFloat (incomingSiacoins t)).sub (siacoinsFloat (outgoingSiacoins t)) =
        (siacoinsFloat (incomingSiacoins t')).sub (siacoinsFloat (outgoingSiacoins t')) ∧
      transactionLine t = transactionLine t' := by
  obtain ⟨hid, hheight, hinputs, houtputs⟩ := h
  have hout : outputLoop t.Outputs = outputLoop t'.Outputs :=
    outputLoop_forall₂ _ _ houtputs _
  have h1 : incomingSiacoins t = incomingSiacoins t' := by
    unfold incomingSiacoins; rw [hout]
  have h2 : outgoingSiacoins t = outgoingSiacoins t' := by
    unfold outgoingSiacoins; rw [hinputs]
  refine ⟨h1, by rw [h1, h2], ?_⟩
  unfold transactionLine
  rw [hout, hinputs, hid, hheight]

/-- C5, at the scenario of the spec: a transaction with no wallet-owned entry and
one miner-payout output of 1 SC has the same line for either value of the flag,
with a net of exactly +1 SC, printed as 1.00 SC. -/
theorem miner_payout_flag_irrelevant_witness :
    differOnlyInMinerPayoutFlags ⟨0, 0, [], [⟨.minerPayout, true, ⟨10 ^ 24⟩⟩]⟩
        ⟨0, 0, [], [⟨.minerPayout, false, ⟨10 ^ 24⟩⟩]⟩ ∧
      transactionLine ⟨0, 0, [], [⟨.minerPayout, true, ⟨10 ^ 24⟩⟩]⟩ =
        transactionLine ⟨0, 0, [], [⟨.minerPayout, false, ⟨10 ^ 24⟩⟩]⟩ ∧
      transactionLine ⟨0, 0, [], [⟨.minerPayout, false, ⟨10 ^ 24⟩⟩]⟩ =
        .ok ⟨.height 0, 0, .finite false (2 ^ 1074), ⟨true, ⟨0⟩⟩⟩ ∧
      Float64.isExactly (.finite false (2 ^ 1074)) ⟨true, ⟨10 ^ 24⟩⟩ = true ∧
      Float64.fmt2 (.finite false (2 ^ 1074)) = .num false 100 :=
  have hd : differOnlyInMinerPayoutFlags ⟨0, 0, [], [⟨.minerPayout, true, ⟨10 ^ 24⟩⟩]⟩
      ⟨0, 0, [], [⟨.minerPayout, false, ⟨10 ^ 24⟩⟩]⟩ :=
    ⟨rfl, rfl, rfl, List.Forall₂.cons ⟨rfl, rfl, fun hne => absurd rfl hne⟩ List.Forall₂.nil⟩
  ⟨hd, (miner_payout_flag_irrelevant _ _ hd).2.2, by decide, by decide, by decide⟩

/-! ## Unit scaling of the amount parser -/

theorem span_append_of_all {p : Char → Bool} (ds rest : List Char)
    (hds : ∀ c ∈ ds, p c = true) (hrest : ∀ c, rest.head? = some c → p c = false) :
    (ds ++ rest).span p = (ds, rest) := by
  induction ds with
  | nil =>
    cases rest with
    | nil => rfl
    | cons c cs =>
      have := hrest c rfl
      simp [List.span_eq_take_drop, List.takeWhile_cons, List.dropWhile_cons, this]
  | cons d ds ih =>
    have hd : p d = true := hds d (List.mem_cons_self _ _)
    have ih' := ih (fun c hc => hds c (List.mem_cons_of_mem _ hc))
    rw [List.span_eq_take_drop] at ih' ⊢
    simp only [List.cons_append, List.takeWhile_cons, List.dropWhile_cons, hd, if_true]
    simp only [Prod.mk.injEq] at ih' ⊢
    exact ⟨by rw [ih'.1], ih'.2⟩

theorem parseDecimal_digits (ds : List Char) (hne : ds ≠ [])
    (hds : ∀ c ∈ ds, c.isDigit = true) : parseDecimal ds = some (digitsValue ds, 0) := by
  have h := span_append_of_all (p := Char.isDigit) ds [] hds (by simp)
  rw [List.append_nil] at h
  unfold parseDecimal
  rw [h]
  simp [hne]

theorem parseDecimal_point (whole frac : List Char) (hne : whole ++ frac ≠ [])
    (hwhole : ∀ c ∈ whole, c.isDigit = true) (hfrac : ∀ c ∈ frac, c.isDigit = true) :
    parseDecimal (whole ++ '.' :: frac) = some (digitsValue (whole ++ frac), frac.length) := by
  have h := span_append_of_all (p := Char.isDigit) whole ('.' :: frac) hwhole
    (by intro c hc; simp at hc; subst hc; decide)
  unfold parseDecimal
  rw [h]
  have hall : frac.all Char.isDigit = true := by simpa [List.all_eq_true] using hfrac
  simp only [hall, true_and]
  rw [if_pos hne]

theorem parseMagnitude_unit (literal : List Char) (n k : Nat) (u : String) (e : Int)
    (hlit : ∀ c ∈ literal, (c.isDigit || c == '.') = true)
    (hdec : parseDecimal literal = some (n, k)) (hu : (u, e) ∈ unitTable) :
    parseMagnitude false (literal ++ u.data) = .ok ⟨n * 10 ^ (24 + e).toNat / 10 ^ k⟩ := by
  have hspan : ∀ s : List Char, (∀ c, s.head? = some c → (c.isDigit || c == '.') = false) →
      (literal ++ s).span (fun c => c.isDigit || c == '.') = (literal, s) :=
    fun s hs => span_append_of_all literal s hlit hs
  simp only [unitTable, List.mem_cons, Prod.mk.injEq, List.mem_singleton, List.not_mem_nil,
    or_false] at hu
  unfold parseMagnitude
  rcases hu with ⟨rfl, rfl⟩ | ⟨rfl, rfl⟩ | ⟨rfl, rfl⟩ | ⟨rfl, rfl⟩ | ⟨rfl, rfl⟩ | ⟨rfl, rfl⟩ |
    ⟨rfl, rfl⟩ | ⟨rfl, rfl⟩ | ⟨rfl, rfl⟩
  all_goals
    rw [hspan _ (by intro c hc; simp at hc; subst hc; decide)]
    simp only [hdec]
    rfl

theorem parseCurrency_of_head (c : Char) (cs : List Char) (hc : c ≠ '-') :
    parseCurrency ⟨c :: cs⟩ = parseMagnitude false (c :: cs) := by
  unfold parseCurrency
  split
  · rename_i rest h
    simp only [List.cons.injEq] at h
    exact absurd h.1 hc
  · rfl

theorem parseCurrency_of_literal (literal rest : List Char) (hne : literal ≠ [])
    (hlit : ∀ c ∈ literal, (c.isDigit || c == '.') = true) :
    parseCurrency ⟨literal ++ rest⟩ = parseMagnitude false (literal ++ rest) := by
  cases literal with
  | nil => exact absurd rfl hne
  | cons c cs =>
    have hc : c ≠ '-' := by
      intro h
      have := hlit c (List.mem_cons_self _ _)
      rw [h] at this
      exact absurd this (by decide)
    exact parseCurrency_of_head c (cs ++ rest) hc

theorem parseMagnitude_hastings (ds : List Char) (hne : ds ≠ [])
    (hds : ∀ c ∈ ds, c.isDigit = true) :
    parseMagnitude false ds = .ok ⟨digitsValue ds⟩ := by
  have hlit : ∀ c ∈ ds, (c.isDigit || c == '.') = true := fun c hc => by simp [hds c hc]
  have h := span_append_of_all (p := fun c => c.isDigit || c == '.') ds [] hlit (by simp)
  rw [List.append_nil] at h
  unfold parseMagnitude
  rw [h]
  simp only [parseDecimal_digits ds hne hds]
  simp

/-- C9: `walletsendsiacoinscmd` posts exactly the value of `parseCurrency(amount)`,
in hastings, and stops when the amount does not parse.  A literal of digits
followed by one of the suffixes pS, nS, uS, mS, SC, KS, MS, GS, TS with exponent
e = −12, −9, −6, −3, 0, 3, 6, 9, 12 is the number times 10^(24+e); with a decimal
point it is the decimal number times 10^(24+e), in whole hastings; a literal of
digits with no suffix is taken as hastings.  Hence `1KS` and `1000SC` parse to
the same 10^27 hastings, and `1TS` and `1000000000000SC` to the same 10^36. -/
theorem send_amount_unit_scaling :
    (∀ (amount dest : String) (hastings : Currency), parseCurrency amount = .ok hastings →
        walletsendsiacoinscmd amount dest = .ok ⟨"/wallet/siacoins", hastings, dest⟩) ∧
      (∀ (amount dest : String) (err : CoreError), parseCurrency amount = .error err →
        walletsendsiacoinscmd amount dest = .error err) ∧
      (∀ (u : String) (e : Int),
        (u, e) ∈ [("pS", (-12 : Int)), ("nS", -9), ("uS", -6), ("mS", -3), ("SC", 0),
          ("KS", 3), ("MS", 6), ("GS", 9), ("TS", 12)] →
        ∀ ds : List Char, ds ≠ [] → (∀ c ∈ ds, c.isDigit = true) →
          parseCurrency ⟨ds ++ u.data⟩ = .ok ⟨digitsValue ds * 10 ^ (24 + e).toNat⟩) ∧
      (∀ (u : String) (e : Int),
        (u, e) ∈ [("pS", (-12 : Int)), ("nS", -9), ("uS", -6), ("mS", -3), ("SC", 0),
          ("KS", 3), ("MS", 6), ("GS", 9), ("TS", 12)] →
        ∀ whole frac : List Char, whole ++ frac ≠ [] → (∀ c ∈ whole, c.isDigit = true) →
          (∀ c ∈ frac, c.isDigit = true) →
          parseCurrency ⟨whole ++ '.' :: frac ++ u.data⟩ =
            .ok ⟨digitsValue (whole ++ frac) * 10 ^ (24 + e).toNat / 10 ^ frac.length⟩) ∧
      (∀ ds : List Char, ds ≠ [] → (∀ c ∈ ds, c.isDigit = true) →
        parseCurrency ⟨ds⟩ = .ok ⟨digitsValue ds⟩) ∧
      parseCurrency "1KS" = .ok ⟨10 ^ 27⟩ ∧ parseCurrency "1000SC" = .ok ⟨10 ^ 27⟩ ∧
      parseCurrency "1KS" = parseCurrency "1000SC" ∧
      parseCurrency "1TS" = .ok ⟨10 ^ 36⟩ ∧
      parseCurrency "1TS" = parseCurrency "1000000000000SC" := by
  refine ⟨?_, ?_, ?_, ?_, ?_, by decide, by decide, by decide, by decide, by decide⟩
  · intro amount dest hastings h
    simp [walletsendsiacoinscmd, h, bind, Except.bind, pure, Except.pure]
  · intro amount dest err h
    simp [walletsendsiacoinscmd, h, bind, Except.bind]
  · intro u e hu ds hne hds
    have hlit : ∀ c ∈ ds, (c.isDigit || c == '.') = true := fun c hc => by simp [hds c hc]
    rw [parseCurrency_of_literal ds u.data hne hlit,
      parseMagnitude_unit ds _ 0 u e hlit (parseDecimal_digits ds hne hds) hu]
    simp
  · intro u e hu whole frac hne hwhole hfrac
    have hlit : ∀ c ∈ whole ++ '.' :: frac, (c.isDigit || c == '.') = true := by
      intro c hc
      rcases List.mem_append.1 hc with h | h
      · simp [hwhole c h]
      · rcases List.mem_cons.1 h with h | h
        · simp [h]
        · simp [hfrac c h]
    have happ : whole ++ '.' :: frac ++ u.data = (whole ++ '.' :: frac) ++ u.data := by simp
    rw [happ, parseCurrency_of_literal _ u.data (by simp) hlit,
      parseMagnitude_unit _ _ _ u e hlit (parseDecimal_point whole frac hne hwhole hfrac) hu]
  · intro ds hne hds
    have hlit : ∀ c ∈ ds, (c.isDigit || c == '.') = true := fun c hc => by simp [hds c hc]
    have := parseCurrency_of_literal ds [] hne hlit
    rw [List.append_nil] at this
    rw [this, parseMagnitude_hastings ds hne hds]

/-- C9, at the amounts `42KS`, `1.23KS` and `500`: 42 · 10^27, 123 · 10^25 and 500
hastings, and the request posted for `1.23KS`. -/
theorem send_amount_unit_scaling_witness :
    parseCurrency "42KS" = .ok ⟨42 * 10 ^ 27⟩ ∧
      parseCurrency "1.23KS" = .ok ⟨123 * 10 ^ 25⟩ ∧
      parseCurrency "500" = .ok ⟨500⟩ ∧
      walletsendsiacoinscmd "1.23KS" "dest" = .ok ⟨"/wallet/siacoins", ⟨123 * 10 ^ 25⟩, "dest"⟩ :=
  ⟨send_amount_unit_scaling.2.2.1 "KS" 3 (by decide) ['4', '2'] (by decide) (by decide),
    send_amount_unit_scaling.2.2.2.1 "KS" 3 (by decide) ['1'] ['2', '3'] (by decide) (by decide)
      (by decide),
    send_amount_unit_scaling.2.2.2.2.1 ['5', '0', '0'] (by decide) (by decide),
    send_amount_unit_scaling.1 "1.23KS" "dest" ⟨123 * 10 ^ 25⟩ (by decide)⟩

end Siac
